/-
Verification of the causality notebooks (linear structural-equation
simulation and OLS-based causal estimation) against their specification.

The development shallowly embeds, over exact rational arithmetic:
 - the DAG and the hand-written structural equations of notebook 01;
 - the data-frame session and the two-stage instrumental-variable
   procedure of notebook 02;
 - the general simulator and estimator components described by the
   specification, where they are not present in the notebooks themselves
   (the noise helper and the error-raising simulator/estimator live
   outside the repository sources and are modelled from the spec).
-/
import Mathlib

namespace NB1

/-- The nine named nodes of the notebook-01 graph. -/
inductive Node : Type
| c | a | x | k | f | d | g | y | h
deriving DecidableEq, Fintype, Repr

/-- The edge list of the notebook-01 graph G, one triple
(source, target, coeff) per add_edge call, in call order. -/
def edges : List (Node × Node × ℚ) :=
  [(.c, .x, 5), (.a, .x, 2), (.a, .k, -3), (.x, .f, 6), (.x, .d, -2),
   (.d, .g, -8), (.k, .y, 3), (.d, .y, 5), (.y, .h, -4)]

/-- The parents of a node: sources of the edges pointing into it,
in edge-list order. -/
def parents (v : Node) : List Node :=
  (edges.filter (fun e => e.2.1 = v)).map (fun e => e.1)

/-- The coeff attribute of the edge from p to v (sum of the matching
entries; each edge appears once in the list). -/
def coeffOf (p v : Node) : ℚ :=
  ((edges.filter (fun e => e.1 = p ∧ e.2.1 = v)).map (fun e => e.2.2)).sum

/-
The structural-equations cell of notebook 01, per sample: each node owns
one independent noise draw, given by the assignment ε : Node → ℚ.
-/

/-- c = noise(n) -/
def vc (ε : Node → ℚ) : ℚ := ε .c

/-- a = noise(n) -/
def va (ε : Node → ℚ) : ℚ := ε .a

/-- x = 5 * c + 2 * a + noise(n) -/
def vx (ε : Node → ℚ) : ℚ := 5 * vc ε + 2 * va ε + ε .x

/-- k = -3 * a + noise(n) -/
def vk (ε : Node → ℚ) : ℚ := -3 * va ε + ε .k

/-- f = 6 * x + noise(n) -/
def vf (ε : Node → ℚ) : ℚ := 6 * vx ε + ε .f

/-- d = -2 * x + noise(n) -/
def vd (ε : Node → ℚ) : ℚ := -2 * vx ε + ε .d

/-- g = -8 * d + noise(n) -/
def vg (ε : Node → ℚ) : ℚ := -8 * vd ε + ε .g

/-- y = 3 * k + 5 * d + noise(n) -/
def vy (ε : Node → ℚ) : ℚ := 3 * vk ε + 5 * vd ε + ε .y

/-- h = -4 * y + noise(n) -/
def vh (ε : Node → ℚ) : ℚ := -4 * vy ε + ε .h

/-- The simulated value of each node for one sample with noise
assignment ε, read off the structural-equations cell. -/
def value (ε : Node → ℚ) : Node → ℚ
| .c => vc ε
| .a => va ε
| .x => vx ε
| .k => vk ε
| .f => vf ε
| .d => vd ε
| .g => vg ε
| .y => vy ε
| .h => vh ε

/-- The assignment order of the structural-equations cell. -/
def order : List Node := [.c, .a, .x, .k, .f, .d, .g, .y, .h]

/-- The position of a node in the assignment order. -/
def pos : Node → ℕ
| .c => 0 | .a => 1 | .x => 2 | .k => 3 | .f => 4
| .d => 5 | .g => 6 | .y => 7 | .h => 8

/-- The data dict and data frame of notebook 01: one named column per
node, each with one entry per sample index below n, with per-sample
noise draws ε. -/
def dfData (n : ℕ) (ε : Node → ℕ → ℚ) : List (String × List ℚ) :=
  [("c", (List.range n).map fun j => value (fun u => ε u j) .c),
   ("a", (List.range n).map fun j => value (fun u => ε u j) .a),
   ("x", (List.range n).map fun j => value (fun u => ε u j) .x),
   ("k", (List.range n).map fun j => value (fun u => ε u j) .k),
   ("f", (List.range n).map fun j => value (fun u => ε u j) .f),
   ("d", (List.range n).map fun j => value (fun u => ε u j) .d),
   ("g", (List.range n).map fun j => value (fun u => ε u j) .g),
   ("y", (List.range n).map fun j => value (fun u => ε u j) .y),
   ("h", (List.range n).map fun j => value (fun u => ε u j) .h)]

end NB1

namespace NB2

/-- Pairwise product sum of two columns. -/
def dot (a b : List ℚ) : ℚ := (List.zipWith (fun u v => u * v) a b).sum

/-- Sample mean of a column. -/
def mean (l : List ℚ) : ℚ := l.sum / l.length

/-- Centered cross sum of two equal-length columns:
sum of (x_j - xbar) * (y_j - ybar), written via raw moments. -/
def sxy (xs ys : List ℚ) : ℚ := dot xs ys - xs.length * mean xs * mean ys

/-- The fitted slope of an OLS regression with intercept of the response
column on a single regressor column, the coefficient that
OLS.from_formula reports for the regressor. -/
def fitSlope (ys xs : List ℚ) : ℚ := sxy xs ys / sxy xs xs

/-- A data frame: named columns in insertion order. -/
abbrev Df : Type := List (String × List ℚ)

/-- Column access by name, empty when absent. -/
def col (df : Df) (s : String) : List ℚ := (List.lookup s df).getD []

/-- The data frame of notebook 02: pd.DataFrame(dict(x=x, i=i, h=h, y=y)). -/
def mkDf (xs is hs ys : List ℚ) : Df :=
  [("x", xs), ("i", is), ("h", hs), ("y", ys)]

/-- OLS.from_formula slope of one named column on another; the fit does
not touch the data frame. -/
def olsSlope (df : Df) (response pred : String) : ℚ :=
  fitSlope (col df response) (col df pred)

/-- Two-regressor OLS with intercept: the coefficients on the two
regressor columns, from the centered normal equations. -/
def fit2 (ys xs zs : List ℚ) : ℚ × ℚ :=
  ((sxy zs zs * sxy xs ys - sxy xs zs * sxy zs ys)
      / (sxy xs xs * sxy zs zs - sxy xs zs ^ 2),
   (sxy xs xs * sxy zs ys - sxy xs zs * sxy xs ys)
      / (sxy xs xs * sxy zs zs - sxy xs zs ^ 2))

/-- The naive regression cell, y on x: reads the frame, returns it
untouched together with the slope. -/
def naiveFit (df : Df) : Df × ℚ := (df, olsSlope df "y" "x")

/-- The adjusted regression, y on x and h: reads the frame, returns it
untouched together with the coefficient pair. -/
def adjustedFit (df : Df) : Df × (ℚ × ℚ) :=
  (df, fit2 (col df "y") (col df "x") (col df "h"))

/-- First stage of the instrumented fit: results.params of x regressed
on i, keeping only the slope on i. -/
def firstStage (df : Df) : Df × ℚ := (df, olsSlope df "x" "i")

/-- The assignment cell of notebook 02: a fresh column named after the
scaled instrument is appended, each entry the i entry times the
first-stage slope. -/
def assignScaled (df : Df) (d : ℚ) : Df :=
  df ++ [("δi", (col df "i").map (fun v => v * d))]

/-- The full two-stage run of notebook 02: first stage, column
assignment, then the second-stage regression of y on the derived
column; returns the final frame and the reported estimate. -/
def twoStageRun (df : Df) : Df × ℚ :=
  let d := (firstStage df).2
  let df2 := assignScaled df d
  (df2, olsSlope df2 "y" "δi")

end NB2

namespace NB2Pop

/-
Population model of the notebook-02 data-generating cell. Modelled from
the spec for the part outside the repository sources: the noise helper is
not under src, and the spec fixes its law as standard normal, scaled by
the written constants, independent across variables. Every simulated
variable is then an exact linear combination of four independent
unit-variance zero-mean basis noises (for h, i, x, y in that order), and
population covariances are the coefficient-wise dot products.
-/

/-- A random variable as its coefficients on the four independent
unit-variance basis noises. -/
abbrev RV : Type := Fin 4 → ℚ

/-- Basis noise j. -/
def en (j : Fin 4) : RV := fun t => if t = j then 1 else 0

/-- gamma = 2 -/
def gamma : ℚ := 2

/-- alpha = 3 -/
def alpha : ℚ := 3

/-- beta = 1 -/
def beta : ℚ := 1

/-- delta = -1 -/
def delta : ℚ := -1

/-- h = 2 * noise(size) -/
def h : RV := fun t => 2 * en 0 t

/-- i = 4 * noise(size) -/
def i : RV := fun t => 4 * en 1 t

/-- x = delta * i + beta * h + 2 * noise(size) -/
def x : RV := fun t => delta * i t + beta * h t + 2 * en 2 t

/-- y = gamma * h + alpha * x + 3 * noise(size) -/
def y : RV := fun t => gamma * h t + alpha * x t + 3 * en 3 t

/-- Population covariance of two such linear combinations: the basis
noises are independent with mean zero and unit variance. -/
def cov (u v : RV) : ℚ := ∑ t, u t * v t

/-- Population slope of the OLS regression with intercept of v on u
(all variables here have mean zero). -/
def popSlope (v u : RV) : ℚ := cov u v / cov u u

/-- Population coefficient on the first regressor of the OLS regression
with intercept of v on the pair (u, w), from the normal equations. -/
def popCoefFst (v u w : RV) : ℚ :=
  (cov w w * cov u v - cov u w * cov w v)
    / (cov u u * cov w w - cov u w ^ 2)

end NB2Pop

namespace Est

open Matrix

/-- Modelled from the spec: the error the estimator must signal on a
rank-deficient design; the estimator component itself is not under the
repository sources (the notebooks call an external regression library). -/
inductive RegError : Type
| SingularMatrixError
deriving DecidableEq, Repr

/-- The design matrix is rank-deficient: its columns satisfy a
non-trivial linear relation (for example one predictor column an exact
linear copy of another). -/
def RankDeficient {m n : ℕ} (X : Matrix (Fin m) (Fin n) ℚ) : Prop :=
  ∃ c : Fin n → ℚ, c ≠ 0 ∧ X *ᵥ c = 0

/-- Modelled from the spec: least squares through the normal equations;
the Gram matrix of the design is inverted through its adjugate when its
determinant is nonzero, and SingularMatrixError is signalled when the
determinant is zero, instead of returning any coefficient vector. -/
def olsFit {m n : ℕ} (X : Matrix (Fin m) (Fin n) ℚ) (y : Fin m → ℚ) :
    Except RegError (Fin n → ℚ) :=
  if (Xᵀ * X).det = 0 then .error .SingularMatrixError
  else .ok ((Xᵀ * X).det⁻¹ • ((Xᵀ * X).adjugate *ᵥ (Xᵀ *ᵥ y)))

end Est

namespace Sim

/-- Modelled from the spec: the error the simulator must signal on a
cyclic edge set; the general simulator component is not under the
repository sources (the notebooks hand-write the equations). -/
inductive SimError : Type
| StructureError
deriving DecidableEq, Repr

/-- A coefficient-weighted directed edge (source, target, coeff). -/
abbrev Edge : Type := String × String × ℚ

/-- There is an edge from u to v in the list. -/
def hasEdge (es : List Edge) (u v : String) : Bool :=
  es.any (fun e => e.1 == u && e.2.1 == v)

/-- A node of the remaining set is ready when no edge into it starts at a
remaining node. -/
def ready (es : List Edge) (rem : List String) (v : String) : Bool :=
  es.all (fun e => !(e.2.1 == v && rem.contains e.1))

/-- Modelled from the spec: fuel-indexed Kahn rounds; each round takes
every ready remaining node, and a round with none signals
StructureError. -/
def topoGo (es : List Edge) : ℕ → List String → Except SimError (List String)
| 0, rem => if rem.isEmpty then .ok [] else .error .StructureError
| fuel + 1, rem =>
  if rem.isEmpty then .ok []
  else
    let rdy := rem.filter (ready es rem)
    if rdy.isEmpty then .error .StructureError
    else
      match topoGo es fuel (rem.filter (fun v => !(ready es rem v))) with
      | .error e => .error e
      | .ok rest => .ok (rdy ++ rest)

/-- Modelled from the spec: topological sort of the node set, root nodes
first, failing with StructureError on a cyclic edge set. -/
def topoSort (nodes : List String) (es : List Edge) :
    Except SimError (List String) :=
  topoGo es nodes.length nodes

/-- One simulated entry of the column of v: the coefficient-weighted sum
of the parents' already-computed entries plus the noise draw of v. -/
def colEntry (es : List Edge) (acc : List (String × List ℚ)) (v : String)
    (ε : String → ℕ → ℚ) (j : ℕ) : ℚ :=
  ((es.filter (fun e => e.2.1 == v)).map
    (fun e => e.2.2 * (((List.lookup e.1 acc).getD []).getD j 0))).sum
    + ε v j

/-- Column-by-column evaluation along the sorted order. -/
def simCols (es : List Edge) (N : ℕ) (ε : String → ℕ → ℚ) :
    List String → List (String × List ℚ) → List (String × List ℚ)
| [], acc => acc
| v :: rest, acc =>
    simCols es N ε rest (acc ++ [(v, (List.range N).map (colEntry es acc v ε))])

/-- Modelled from the spec: the simulator sorts the nodes topologically,
failing with StructureError on a cycle, and otherwise evaluates one
column of N entries per node in that order. -/
def simulate (nodes : List String) (es : List Edge) (N : ℕ)
    (ε : String → ℕ → ℚ) : Except SimError (List (String × List ℚ)) :=
  match topoSort nodes es with
  | .error e => .error e
  | .ok ord => .ok (simCols es N ε ord [])

/-- A directed cycle in the edge set: a nonempty node list chained by
edges back to its head. -/
def IsCycle (es : List Edge) : List String → Prop
| [] => False
| v :: vs => List.Chain (fun u w => hasEdge es u w = true) v (vs ++ [v])

/-- The edge set admits a topological order: some node list places the
source of every edge strictly before its target. -/
def Acyclic (es : List Edge) : Prop :=
  ∃ ord : List String, ∀ e ∈ es, ord.indexOf e.1 < ord.indexOf e.2.1

end Sim

/-- Claim C1: for every node v and every per-sample noise assignment, the
simulated value of v equals the sum over the parents p of v of
(coeff attribute of the edge p to v) times the value of p, plus the noise
draw of v; a node with no incoming edges is pure noise. The hand-written
multipliers of the equations cell therefore coincide with the coeff
attributes of G. -/
theorem nb1_value_eq_weighted_parents_plus_noise (ε : NB1.Node → ℚ)
    (v : NB1.Node) :
    NB1.value ε v
      = ((NB1.parents v).map (fun p => NB1.coeffOf p v * NB1.value ε p)).sum
        + ε v := by
  cases v <;>
    simp [NB1.value, NB1.parents, NB1.coeffOf, NB1.edges, NB1.vc, NB1.va,
      NB1.vx, NB1.vk, NB1.vf, NB1.vd, NB1.vg, NB1.vy, NB1.vh,
      List.filter, List.map, List.sum]

/-- Claim C3: the assignment order c, a, x, k, f, d, g, y, h of the
equations cell is a topological order of G: pos indexes that order, every
edge goes from an earlier to a later node, and hence every parent of a
node (everything its equation references) is evaluated before it. -/
theorem nb1_order_topological :
    (∀ i : Fin NB1.order.length, NB1.pos (NB1.order.get i) = i)
    ∧ (∀ e ∈ NB1.edges, NB1.pos e.1 < NB1.pos e.2.1)
    ∧ (∀ v : NB1.Node, ∀ p ∈ NB1.parents v, NB1.pos p < NB1.pos v) := by
  refine ⟨by decide, by decide, by decide⟩

/-- Witness for C3 at the edge (d, y, 5) and at parent k of y. -/
theorem nb1_order_topological_witness :
    NB1.pos NB1.Node.d < NB1.pos NB1.Node.y
    ∧ NB1.pos NB1.Node.k < NB1.pos NB1.Node.y :=
  ⟨nb1_order_topological.2.1 (NB1.Node.d, NB1.Node.y, 5) (by decide),
   nb1_order_topological.2.2 NB1.Node.y NB1.Node.k (by decide)⟩

namespace NB2

theorem dot_map_mul_left (d : ℚ) :
    ∀ xs ys : List ℚ, dot (xs.map (fun v => d * v)) ys = d * dot xs ys := by
  intro xs
  induction xs with
  | nil => intro ys; simp [dot]
  | cons u us ih =>
    intro ys
    cases ys with
    | nil => simp [dot]
    | cons w ws => simp [dot] at ih ⊢; rw [ih]; ring

theorem dot_comm : ∀ xs ys : List ℚ, dot xs ys = dot ys xs := by
  intro xs
  induction xs with
  | nil => intro ys; cases ys <;> simp [dot]
  | cons u us ih =>
    intro ys
    cases ys with
    | nil => simp [dot]
    | cons w ws => simp [dot] at ih ⊢; rw [ih]; ring

theorem sum_map_mul_left (d : ℚ) (xs : List ℚ) :
    (xs.map (fun v => d * v)).sum = d * xs.sum := by
  induction xs with
  | nil => simp
  | cons u us ih => simp [ih]; ring

theorem mean_map_mul_left (d : ℚ) (xs : List ℚ) :
    mean (xs.map (fun v => d * v)) = d * mean xs := by
  simp [mean, sum_map_mul_left, mul_div_assoc]

theorem sxy_map_mul_left (d : ℚ) (xs ys : List ℚ) :
    sxy (xs.map (fun v => d * v)) ys = d * sxy xs ys := by
  simp [sxy, dot_map_mul_left, mean_map_mul_left]; ring

theorem sxx_map_mul_left (d : ℚ) (xs : List ℚ) :
    sxy (xs.map (fun v => d * v)) (xs.map (fun v => d * v))
      = d ^ 2 * sxy xs xs := by
  have h1 : dot (xs.map (fun v => d * v)) (xs.map (fun v => d * v))
      = d * (d * dot xs xs) := by
    rw [dot_map_mul_left, dot_comm, dot_map_mul_left, dot_comm]
  simp [sxy, h1, mean_map_mul_left]; ring

/-- Rescaling the lone regressor by a nonzero constant divides the fitted
slope by that constant. -/
theorem fitSlope_map_mul_left (d : ℚ) (hd : d ≠ 0) (xs ys : List ℚ) :
    fitSlope ys (xs.map (fun v => d * v)) = fitSlope ys xs / d := by
  rw [fitSlope, fitSlope, sxy_map_mul_left, sxx_map_mul_left]
  rcases eq_or_ne (sxy xs xs) 0 with h0 | h0
  · simp [h0, sxy_map_mul_left]
  · field_simp
    ring

/-- Evaluation of the two-stage run on the notebook frame: the reported
estimate is the fitted slope of the y column on the derived column of
first-stage-slope-scaled i entries. -/
theorem twoStage_run_eval (xs is hs ys : List ℚ) :
    (twoStageRun (mkDf xs is hs ys)).2
      = fitSlope ys (is.map (fun v => fitSlope xs is * v)) := by
  simp [col, mkDf, assignScaled, twoStageRun, firstStage, olsSlope,
    List.lookup, mul_comm]

end NB2

/-- Claim C2: the two-stage procedure performs exactly: (i) the
first-stage slope is the fitted slope of the x column on the i column;
(ii) the derived column holds, row by row, that slope times the i entry;
(iii) the reported estimate is the fitted slope of the y column on the
derived column. -/
theorem nb2_two_stage_steps (xs is hs ys : List ℚ) :
    (NB2.firstStage (NB2.mkDf xs is hs ys)).2 = NB2.fitSlope xs is
    ∧ NB2.col
        (NB2.assignScaled (NB2.mkDf xs is hs ys)
          (NB2.firstStage (NB2.mkDf xs is hs ys)).2) "δi"
        = is.map (fun v => NB2.fitSlope xs is * v)
    ∧ (NB2.twoStageRun (NB2.mkDf xs is hs ys)).2
        = NB2.fitSlope ys (is.map (fun v => NB2.fitSlope xs is * v)) := by
  refine ⟨rfl, ?_, NB2.twoStage_run_eval xs is hs ys⟩
  simp [NB2.col, NB2.mkDf, NB2.assignScaled,
    NB2.firstStage, NB2.olsSlope, List.lookup, mul_comm]

namespace Sim

theorem chain_pred {r : String → String → Prop} :
    ∀ {l : List String} {a : String}, List.Chain r a l →
      ∀ b ∈ l, ∃ p, (p = a ∨ p ∈ l) ∧ r p b := by
  intro l
  induction l with
  | nil => intro a _ b hb; simp at hb
  | cons c cs ih =>
    intro a hch b hb
    rw [List.chain_cons] at hch
    rcases List.mem_cons.mp hb with hb | hb
    · exact ⟨a, Or.inl rfl, hb ▸ hch.1⟩
    · obtain ⟨p, hp, hr⟩ := ih hch.2 b hb
      rcases hp with hp | hp
      · exact ⟨p, Or.inr (by simp [hp]), hr⟩
      · exact ⟨p, Or.inr (by simp [hp]), hr⟩

/-- Every node of a cycle has an in-edge from a node of the cycle. -/
theorem cycle_mem_pred {es : List Edge} {C : List String}
    (hC : IsCycle es C) : ∀ u ∈ C, ∃ p ∈ C, hasEdge es p u = true := by
  cases C with
  | nil => exact absurd hC (by simp [IsCycle])
  | cons v vs =>
    intro u hu
    have hu' : u ∈ vs ++ [v] := by
      rcases List.mem_cons.mp hu with hu | hu
      · simp [hu]
      · simp [hu]
    obtain ⟨p, hp, hr⟩ := chain_pred hC u hu'
    refine ⟨p, ?_, hr⟩
    rcases hp with hp | hp
    · simp [hp]
    · rcases List.mem_append.mp hp with hp | hp
      · simp [List.mem_cons.mpr (Or.inr hp)]
      · simp at hp; simp [hp]

/-- A node with an in-edge from a remaining node is not ready. -/
theorem not_ready_of_pred {es : List Edge} {rem : List String}
    {p u : String} (hpe : hasEdge es p u = true) (hp : p ∈ rem) :
    ready es rem u = false := by
  simp only [hasEdge, List.any_eq_true, Bool.and_eq_true, beq_iff_eq] at hpe
  obtain ⟨e, he, h1, h2⟩ := hpe
  have hcont : rem.contains e.1 = true := by
    rw [h1]
    exact List.contains_iff_exists_mem_beq.mpr ⟨p, hp, by simp⟩
  simp only [ready, List.all_eq_false]
  exact ⟨e, he, by simp [h2, h1, hp]⟩

/-- On a remaining set containing a cycle of the edge set, every Kahn
round fails. -/
theorem topoGo_error_of_cycle {es : List Edge} {C : List String}
    (hC : IsCycle es C) (hCne : C ≠ []) :
    ∀ fuel rem, (∀ u ∈ C, u ∈ rem) →
      topoGo es fuel rem = .error .StructureError := by
  intro fuel
  induction fuel with
  | zero =>
    intro rem hsub
    have : ¬rem.isEmpty := by
      cases C with
      | nil => exact absurd rfl hCne
      | cons v vs =>
        have := hsub v (by simp)
        simp [List.isEmpty_iff]
        intro h; rw [h] at this; simp at this
    simp [topoGo, this]
  | succ fuel ih =>
    intro rem hsub
    have hne : ¬rem.isEmpty := by
      cases C with
      | nil => exact absurd rfl hCne
      | cons v vs =>
        have := hsub v (by simp)
        simp [List.isEmpty_iff]
        intro h; rw [h] at this; simp at this
    have hsub' : ∀ u ∈ C, u ∈ rem.filter (fun v => !(ready es rem v)) := by
      intro u hu
      obtain ⟨p, hpC, hpe⟩ := cycle_mem_pred hC u hu
      have hnr : ready es rem u = false := not_ready_of_pred hpe (hsub p hpC)
      simp [List.mem_filter, hsub u hu, hnr]
    have hrec := ih _ hsub'
    by_cases hrdy : (rem.filter (ready es rem)).isEmpty
    · simp [topoGo, hne, hrdy]
    · simp [topoGo, hne, hrdy, hrec]

/-- With a compatible order available, every nonempty remaining set has a
ready node: the remaining node of least rank. -/
theorem exists_ready {es : List Edge} {ord : List String}
    (hord : ∀ e ∈ es, ord.indexOf e.1 < ord.indexOf e.2.1)
    {rem : List String} (hne : rem ≠ []) :
    ∃ v ∈ rem, ready es rem v = true := by
  obtain ⟨v, hv⟩ : ∃ v, v ∈ rem.argmin ord.indexOf := by
    cases h : rem.argmin ord.indexOf with
    | none => exact absurd (List.argmin_eq_none.mp h) hne
    | some v => exact ⟨v, by simp [h]⟩
  refine ⟨v, List.argmin_mem hv, ?_⟩
  by_contra hnot
  have hfalse : ready es rem v = false := by
    cases h : ready es rem v with
    | false => rfl
    | true => exact absurd h hnot
  simp only [ready, List.all_eq_false] at hfalse
  obtain ⟨e, he, hbe⟩ := hfalse
  have hbe' : (e.2.1 == v && rem.contains e.1) = true := by
    revert hbe
    cases e.2.1 == v && rem.contains e.1 <;> simp
  simp only [Bool.and_eq_true, beq_iff_eq,
    List.contains_iff_exists_mem_beq] at hbe'
  obtain ⟨htgt, p, hp, hpe⟩ := hbe'
  have hpe' : e.1 = p := by simpa using hpe
  have hlt : ord.indexOf e.1 < ord.indexOf e.2.1 := hord e he
  have hmin : ord.indexOf v ≤ ord.indexOf e.1 :=
    List.le_of_mem_argmin (hpe' ▸ hp) hv
  rw [htgt] at hlt
  omega

/-- With a compatible order available and enough fuel, the Kahn rounds
succeed and return a permutation of the remaining set. -/
theorem topoGo_ok_of_acyclic {es : List Edge} {ord : List String}
    (hord : ∀ e ∈ es, ord.indexOf e.1 < ord.indexOf e.2.1) :
    ∀ fuel rem, rem.length ≤ fuel →
      ∃ l, topoGo es fuel rem = .ok l ∧ List.Perm l rem := by
  intro fuel
  induction fuel with
  | zero =>
    intro rem hlen
    have : rem = [] := List.length_eq_zero.mp (Nat.le_zero.mp hlen)
    subst this
    exact ⟨[], by simp [topoGo], List.Perm.refl _⟩
  | succ fuel ih =>
    intro rem hlen
    by_cases hne : rem.isEmpty
    · refine ⟨[], by simp [topoGo, hne], ?_⟩
      rw [List.isEmpty_iff.mp hne]
    · have hne' : rem ≠ [] := by simpa [List.isEmpty_iff] using hne
      obtain ⟨v, hvmem, hvready⟩ := exists_ready hord hne'
      have hrdy : ¬(rem.filter (ready es rem)).isEmpty := by
        simp [List.isEmpty_iff, List.filter_eq_nil_iff]
        exact ⟨v, hvmem, by simp [hvready]⟩
      have hstep : (rem.filter (fun v => !(ready es rem v))).length < rem.length := by
        refine List.length_filter_lt_length_iff_exists.mpr ⟨v, hvmem, ?_⟩
        simp [hvready]
      obtain ⟨l, hok, hperm⟩ := ih (rem.filter (fun v => !(ready es rem v)))
        (by omega)
      refine ⟨rem.filter (ready es rem) ++ l, ?_, ?_⟩
      · simp [topoGo, hne, hrdy, hok]
      · exact List.Perm.trans (List.Perm.append_left _ hperm)
          (List.filter_append_perm _ rem)

/-- The names of the simulated columns: the accumulated names followed by
the processed order. -/
theorem simCols_names (es : List Edge) (N : ℕ) (ε : String → ℕ → ℚ) :
    ∀ (ord : List String) (acc : List (String × List ℚ)),
      (simCols es N ε ord acc).map Prod.fst = acc.map Prod.fst ++ ord := by
  intro ord
  induction ord with
  | nil => intro acc; simp [simCols]
  | cons v rest ih => intro acc; simp [simCols, ih]

/-- Every simulated column has exactly N entries. -/
theorem simCols_lengths (es : List Edge) (N : ℕ) (ε : String → ℕ → ℚ) :
    ∀ (ord : List String) (acc : List (String × List ℚ)),
      (∀ p ∈ acc, p.2.length = N) →
      ∀ p ∈ simCols es N ε ord acc, p.2.length = N := by
  intro ord
  induction ord with
  | nil => intro acc hacc; simpa [simCols] using hacc
  | cons v rest ih =>
    intro acc hacc
    refine ih _ ?_
    intro p hp
    rcases List.mem_append.mp hp with hp | hp
    · exact hacc p hp
    · simp at hp; simp [hp]

end Sim

/-- Claim C10: when the instrument column is non-constant (nonzero
centered sum of squares) and the first-stage slope is nonzero, the
two-stage estimate equals the fitted slope of y on i divided by the
fitted slope of x on i: the procedure computes the ratio estimator. -/
theorem nb2_two_stage_is_ratio (xs is hs ys : List ℚ)
    (hvar : NB2.sxy is is ≠ 0) (hd : NB2.fitSlope xs is ≠ 0) :
    (NB2.twoStageRun (NB2.mkDf xs is hs ys)).2
      = NB2.fitSlope ys is / NB2.fitSlope xs is := by
  rw [NB2.twoStage_run_eval, NB2.fitSlope_map_mul_left _ hd]

/-- Witness for C10 on a concrete frame with non-constant instrument and
nonzero first-stage slope. -/
theorem nb2_two_stage_is_ratio_witness :
    (NB2.twoStageRun (NB2.mkDf [0, 2] [0, 1] [0, 0] [0, 3])).2
      = NB2.fitSlope [0, 3] [0, 1] / NB2.fitSlope [0, 2] [0, 1] :=
  nb2_two_stage_is_ratio [0, 2] [0, 1] [0, 0] [0, 3]
    (by norm_num [NB2.sxy, NB2.dot, NB2.mean])
    (by norm_num [NB2.fitSlope, NB2.sxy, NB2.dot, NB2.mean])

/-- Counterexample to claim C7 as stated: the two-stage instrumented
regression of notebook 02 does change the sample table it consumes, by
appending the derived column, so the table after the call differs from
the table before. -/
theorem nb2_two_stage_mutates_table :
    (NB2.twoStageRun (NB2.mkDf [1] [1] [1] [1])).1
      ≠ NB2.mkDf [1] [1] [1] [1] := by
  decide

/-- Claim C7 amended: the naive and adjusted regression calls leave the
sample table unchanged; the two-stage run only appends the single
derived column, keeping every existing column, name, and value intact
(the original table is a sublist of the final one and the column names
gain exactly the derived name at the end). -/
theorem nb2_table_preservation (xs is hs ys : List ℚ) :
    (NB2.naiveFit (NB2.mkDf xs is hs ys)).1 = NB2.mkDf xs is hs ys
    ∧ (NB2.adjustedFit (NB2.mkDf xs is hs ys)).1 = NB2.mkDf xs is hs ys
    ∧ List.Sublist (NB2.mkDf xs is hs ys)
        (NB2.twoStageRun (NB2.mkDf xs is hs ys)).1
    ∧ ((NB2.twoStageRun (NB2.mkDf xs is hs ys)).1.map Prod.fst)
        = (NB2.mkDf xs is hs ys).map Prod.fst ++ ["δi"] := by
  refine ⟨rfl, rfl, ?_, ?_⟩
  · exact List.sublist_append_left _ _
  · simp [NB2.twoStageRun, NB2.assignScaled, NB2.mkDf]

/-- Claim C9: in the notebook-02 scenario (h to x coeff 1, h to y coeff
2, x to y coeff 3, standard-normal noises scaled by the written
constants), at the population level the naive OLS slope of y on x is
10/3, strictly greater than 3, while the coefficient on x of the OLS of
y on x and h is exactly 3, inside the stated 0.2 tolerance. -/
theorem nb2_naive_biased_adjusted_close :
    NB2Pop.popSlope NB2Pop.y NB2Pop.x = 10 / 3
    ∧ 3 < NB2Pop.popSlope NB2Pop.y NB2Pop.x
    ∧ NB2Pop.popCoefFst NB2Pop.y NB2Pop.x NB2Pop.h = 3
    ∧ |NB2Pop.popCoefFst NB2Pop.y NB2Pop.x NB2Pop.h - 3| ≤ 1 / 5 := by
  have hnaive : NB2Pop.popSlope NB2Pop.y NB2Pop.x = 10 / 3 := by
    norm_num +decide [NB2Pop.popSlope, NB2Pop.cov, Fin.sum_univ_four, NB2Pop.x,
      NB2Pop.y, NB2Pop.h, NB2Pop.i, NB2Pop.en, NB2Pop.gamma, NB2Pop.alpha,
      NB2Pop.beta, NB2Pop.delta]
  have hadj : NB2Pop.popCoefFst NB2Pop.y NB2Pop.x NB2Pop.h = 3 := by
    norm_num +decide [NB2Pop.popCoefFst, NB2Pop.cov, Fin.sum_univ_four, NB2Pop.x,
      NB2Pop.y, NB2Pop.h, NB2Pop.i, NB2Pop.en, NB2Pop.gamma, NB2Pop.alpha,
      NB2Pop.beta, NB2Pop.delta]
  refine ⟨hnaive, by rw [hnaive]; norm_num, hadj, by rw [hadj]; norm_num⟩

open Matrix in
/-- Claim C5: the estimator raises SingularMatrixError exactly on
rank-deficient designs: a non-trivial linear relation among the columns
forces the error, and whenever a coefficient vector is returned the
columns are linearly independent, so no non-unique solution is ever
returned silently. -/
theorem est_singular_error_iff_rank_deficient {m n : ℕ}
    (X : Matrix (Fin m) (Fin n) ℚ) (y : Fin m → ℚ) :
    Est.RankDeficient X ↔ Est.olsFit X y = .error .SingularMatrixError := by
  constructor
  · rintro ⟨c, hc, hXc⟩
    have hG : (Xᵀ * X) *ᵥ c = 0 := by
      rw [← Matrix.mulVec_mulVec, hXc, Matrix.mulVec_zero]
    have hdet : (Xᵀ * X).det = 0 :=
      (Matrix.exists_mulVec_eq_zero_iff).mp ⟨c, hc, hG⟩
    simp [Est.olsFit, hdet]
  · intro herr
    by_cases hdet : (Xᵀ * X).det = 0
    · obtain ⟨c, hc, hGc⟩ := (Matrix.exists_mulVec_eq_zero_iff).mpr hdet
      refine ⟨c, hc, ?_⟩
      have hdp : (X *ᵥ c) ⬝ᵥ (X *ᵥ c) = 0 := by
        have h1 : c ⬝ᵥ ((Xᵀ * X) *ᵥ c) = 0 := by
          rw [hGc, Matrix.dotProduct_zero]
        rwa [← Matrix.mulVec_mulVec, Matrix.dotProduct_mulVec,
          Matrix.vecMul_transpose] at h1
      exact Matrix.dotProduct_self_eq_zero.mp hdp
    · simp [Est.olsFit, hdet] at herr

/-- Witness for C5: a design whose second column is an exact copy of the
first is rejected with SingularMatrixError. -/
theorem est_singular_error_witness :
    Est.olsFit (Matrix.of ![![(1 : ℚ), 1], ![2, 2]]) ![1, 2]
      = .error .SingularMatrixError :=
  (est_singular_error_iff_rank_deficient _ _).mp
    ⟨![1, -1], by decide, by
      funext t
      fin_cases t <;>
        norm_num [Matrix.mulVec, Matrix.dotProduct, Fin.sum_univ_two]⟩

/-- Claim C4: on an edge set containing a directed cycle among the given
nodes the simulation fails at once with StructureError and yields no
sample table, while on every edge set admitting a topological order the
simulation proceeds and yields a table. -/
theorem sim_cycle_structure_error (nodes : List String) (es : List Sim.Edge)
    (N : ℕ) (ε : String → ℕ → ℚ) :
    (∀ C, Sim.IsCycle es C → (∀ u ∈ C, u ∈ nodes) →
      Sim.simulate nodes es N ε = .error .StructureError)
    ∧ (Sim.Acyclic es → ∃ t, Sim.simulate nodes es N ε = .ok t) := by
  constructor
  · intro C hC hsub
    have hCne : C ≠ [] := by
      intro h; rw [h] at hC; exact hC
    have := Sim.topoGo_error_of_cycle hC hCne nodes.length nodes hsub
    simp [Sim.simulate, Sim.topoSort, this]
  · rintro ⟨ord, hord⟩
    obtain ⟨l, hok, -⟩ :=
      Sim.topoGo_ok_of_acyclic hord nodes.length nodes (Nat.le_refl _)
    refine ⟨Sim.simCols es N ε l [], ?_⟩
    simp [Sim.simulate, Sim.topoSort, hok]

/-- Witness for C4: the two-node cycle u to w to u fails with
StructureError, and the single edge u to w succeeds. -/
theorem sim_cycle_structure_error_witness :
    Sim.simulate ["u", "w"] [("u", "w", 1), ("w", "u", 1)] 2 (fun _ _ => 0)
      = .error .StructureError
    ∧ ∃ t, Sim.simulate ["u", "w"] [("u", "w", 1)] 2 (fun _ _ => 0) = .ok t :=
  ⟨(sim_cycle_structure_error ["u", "w"] [("u", "w", 1), ("w", "u", 1)] 2
      (fun _ _ => 0)).1 ["u", "w"] (by simp [Sim.IsCycle, Sim.hasEdge])
      (by decide),
   (sim_cycle_structure_error ["u", "w"] [("u", "w", 1)] 2 (fun _ _ => 0)).2
     ⟨["u", "w"], by decide⟩⟩

/-- Claim C6: for every edge set admitting a topological order and every
positive sample count N, the simulator yields a table with exactly one
column per given node and N entries per column; the notebook-01 frame
likewise has exactly the nine columns c, a, x, k, f, d, g, y, h, each
with one entry per sample. All entries are exact rationals. -/
theorem sim_table_shape (nodes : List String) (es : List Sim.Edge) (N : ℕ)
    (ε : String → ℕ → ℚ) (ε1 : NB1.Node → ℕ → ℚ)
    (hA : Sim.Acyclic es) (hN : 0 < N) :
    (∃ t, Sim.simulate nodes es N ε = .ok t
      ∧ List.Perm (t.map Prod.fst) nodes
      ∧ ∀ p ∈ t, p.2.length = N)
    ∧ ((NB1.dfData N ε1).map Prod.fst
        = ["c", "a", "x", "k", "f", "d", "g", "y", "h"]
      ∧ ∀ p ∈ NB1.dfData N ε1, p.2.length = N) := by
  constructor
  · obtain ⟨ord, hord⟩ := hA
    obtain ⟨l, hok, hperm⟩ :=
      Sim.topoGo_ok_of_acyclic hord nodes.length nodes (Nat.le_refl _)
    refine ⟨Sim.simCols es N ε l [], ?_, ?_, ?_⟩
    · simp [Sim.simulate, Sim.topoSort, hok]
    · rw [Sim.simCols_names]
      simpa using hperm
    · exact Sim.simCols_lengths es N ε l [] (by simp)
  · refine ⟨by simp [NB1.dfData], ?_⟩
    intro p hp
    simp only [NB1.dfData, List.mem_cons, List.not_mem_nil, or_false] at hp
    rcases hp with h | h | h | h | h | h | h | h | h <;> simp [h]

/-- Witness for C6 on a two-node single-edge graph with N = 1000. -/
theorem sim_table_shape_witness :
    (∃ t, Sim.simulate ["u", "w"] [("u", "w", 2)] 1000 (fun _ _ => 0) = .ok t
      ∧ List.Perm (t.map Prod.fst) ["u", "w"]
      ∧ ∀ p ∈ t, p.2.length = 1000)
    ∧ ((NB1.dfData 1000 (fun _ _ => 0)).map Prod.fst
        = ["c", "a", "x", "k", "f", "d", "g", "y", "h"]
      ∧ ∀ p ∈ NB1.dfData 1000 (fun _ _ => 0), p.2.length = 1000) :=
  sim_table_shape ["u", "w"] [("u", "w", 2)] 1000 (fun _ _ => 0)
    (fun _ _ => 0) ⟨["u", "w"], by decide⟩ (by decide)

/-- Claim C8: the simulators and the estimator are pure functions of
their explicit inputs: runs with pointwise-equal noise draws (the same
seed) give identical node values and identical sample tables, and the
fitted slope depends on nothing besides the columns passed to it. -/
theorem runs_pure_deterministic (ε1 ε2 : NB1.Node → ℚ)
    (η1 η2 : String → ℕ → ℚ) (nodes : List String) (es : List Sim.Edge)
    (N : ℕ) (h1 : ∀ u, ε1 u = ε2 u) (h2 : ∀ s j, η1 s j = η2 s j) :
    (∀ v, NB1.value ε1 v = NB1.value ε2 v)
    ∧ Sim.simulate nodes es N η1 = Sim.simulate nodes es N η2 := by
  have e1 : ε1 = ε2 := funext h1
  have e2 : η1 = η2 := funext fun s => funext (h2 s)
  subst e1
  subst e2
  exact ⟨fun _ => rfl, rfl⟩

/-- Witness for C8 with equal constant noise functions. -/
theorem runs_pure_deterministic_witness :
    NB1.value (fun _ => 1) NB1.Node.y = NB1.value (fun _ => 1) NB1.Node.y
    ∧ Sim.simulate ["u"] [] 1 (fun _ _ => 0)
        = Sim.simulate ["u"] [] 1 (fun _ _ => 0) :=
  ⟨(runs_pure_deterministic (fun _ => 1) (fun _ => 1) (fun _ _ => 0)
      (fun _ _ => 0) ["u"] [] 1 (fun _ => rfl) (fun _ _ => rfl)).1 NB1.Node.y,
   (runs_pure_deterministic (fun _ => 1) (fun _ => 1) (fun _ _ => 0)
      (fun _ _ => 0) ["u"] [] 1 (fun _ => rfl) (fun _ _ => rfl)).2⟩
